import Mathlib

/-!
# Verification of `tools/make-mo.py`

A shallow embedding of the PO→MO converter: `unescape` and `parse_po`
(the text-catalog parser, working on lists of characters) and `make_mo`
(the binary GNU MO encoder, working on UTF-8 byte sequences).

Strings on the encoder side are modelled by their UTF-8 byte sequences
(`Bytes := List Nat`); this is faithful because `make_mo` only ever uses a
string through `encode('utf-8')` (for the sort key, lengths and the payload)
and through emptiness tests, and UTF-8 encoding is injective and maps the
empty string to the empty byte sequence.  Machine 4-byte integers are
modelled as `Nat` written out in little-endian base-256 digits; values that
`struct.pack('<I', ·)` would reject (≥ 2^32, raising `struct.error` in the
source) make the encoder return `none`.
-/

namespace MakeMo

/-- A byte string: the UTF-8 encoding of a Python `str`. -/
abbrev Bytes := List Nat

/-- `struct.pack('<I', n)`: four little-endian base-256 digits. -/
def u32 (n : Nat) : Bytes :=
  [n % 256, n / 256 % 256, n / 65536 % 256, n / 16777216 % 256]

/-- Byte of a file at position `i` (0 past the end). -/
def byteAt (l : Bytes) (i : Nat) : Nat := l.getD i 0

/-- Read a 4-byte little-endian unsigned integer at position `p` of a file. -/
def readU32 (l : Bytes) (p : Nat) : Nat :=
  byteAt l p + 256 * byteAt l (p + 1) + 65536 * byteAt l (p + 2) +
    16777216 * byteAt l (p + 3)

/-- The `(length, offset)` metadata list that the two `for` loops of
`make_mo` build: entry `i` is the byte length of string `i` and its absolute
file position, positions advancing by `length + 1` for the NUL. -/
def metaFrom (pos : Nat) : List Bytes → List (Nat × Nat)
  | [] => []
  | s :: rest => (s.length, pos) :: metaFrom (pos + s.length + 1) rest

/-- One offsets table: each `(length, offset)` packed as two `u32`s. -/
def table (m : List (Nat × Nat)) : Bytes :=
  (m.map fun lo => u32 lo.1 ++ u32 lo.2).flatten

/-- Concatenated string data: each string followed by one NUL byte. -/
def blob (ss : List Bytes) : Bytes :=
  (ss.map fun s => s ++ [0]).flatten

/-- `[(k, v) for k, v in pairs if v or k == '']`. -/
def filterPairs (pairs : List (Bytes × Bytes)) : List (Bytes × Bytes) :=
  pairs.filter fun kv => !kv.2.isEmpty || kv.1.isEmpty

/-- Lexicographic byte-wise `<=` on byte strings — Python's ordering on
`bytes` values, used by `pairs.sort(key=lambda x: x[0].encode('utf-8'))`. -/
def bytesLe : Bytes → Bytes → Bool
  | [], _ => true
  | _ :: _, [] => false
  | a :: as, b :: bs => if a < b then true else if a = b then bytesLe as bs else false

/-- `pairs.sort(key=lambda x: x[0].encode('utf-8'))`: a stable sort by the
byte-wise order of the original string (insertion sort is stable, like
Python's `list.sort`). -/
def sortPairs (l : List (Bytes × Bytes)) : List (Bytes × Bytes) :=
  List.insertionSort (fun x y => bytesLe x.1 y.1 = true) l

/-- The entries that survive filtering, in encoding order. -/
def survivors (pairs : List (Bytes × Bytes)) : List (Bytes × Bytes) :=
  sortPairs (filterPairs pairs)

/-- Original-strings metadata: positions start at `H = 28 + 16 N`. -/
def orig_meta (ss : List (Bytes × Bytes)) : List (Nat × Nat) :=
  metaFrom (28 + 16 * ss.length) (ss.map Prod.fst)

/-- Translated-strings metadata: positions continue where the original
string data ends. -/
def trans_meta (ss : List (Bytes × Bytes)) : List (Nat × Nat) :=
  metaFrom (28 + 16 * ss.length + (blob (ss.map Prod.fst)).length)
    (ss.map Prod.snd)

/-- The byte image `make_mo` writes for an already filtered and sorted
entry list: 7-word header, the two tables, then the two data regions. -/
def encode (ss : List (Bytes × Bytes)) : Bytes :=
  u32 0x950412de ++ u32 0 ++ u32 ss.length ++ u32 28 ++
    u32 (28 + 8 * ss.length) ++ u32 0 ++ u32 (28 + 16 * ss.length) ++
    table (orig_meta ss) ++ table (trans_meta ss) ++
    blob (ss.map Prod.fst) ++ blob (ss.map Prod.snd)

/-- `n` fits in a 4-byte unsigned field (`struct.pack('<I', n)` succeeds). -/
def fitsU32 (n : Nat) : Bool := decide (n < 4294967296)

/-- Every value `make_mo` passes to `struct.pack` fits in 32 bits (the
constants `0x950412de`, `0`, `28` always do). -/
def packOk (ss : List (Bytes × Bytes)) : Bool :=
  fitsU32 ss.length && fitsU32 (28 + 8 * ss.length) &&
    fitsU32 (28 + 16 * ss.length) &&
    (orig_meta ss).all (fun lo => fitsU32 lo.1 && fitsU32 lo.2) &&
    (trans_meta ss).all (fun lo => fitsU32 lo.1 && fitsU32 lo.2)

/-- `make_mo` (file-writing part): filter, sort, emit the bytes; `none`
models the `struct.error` crash on a value too large for `'<I'`. -/
def make_mo (pairs : List (Bytes × Bytes)) : Option Bytes :=
  if packOk (survivors pairs) then some (encode (survivors pairs)) else none

/-- Modelled from the spec: a conforming reference MO reader (the source
repository contains no decoder — the spec's §4.2 layout and §8.1 round-trip
property describe one).  It reads the entry count at offset 8 and the two
table offsets at 12 and 16, then for each index reads `(length, offset)`
from each table and slices `length` bytes at absolute `offset`. -/
def readMo (file : Bytes) : List (Bytes × Bytes) :=
  let N := readU32 file 8
  let O := readU32 file 12
  let T := readU32 file 16
  (List.range N).map fun i =>
    ((file.drop (readU32 file (O + 8 * i + 4))).take (readU32 file (O + 8 * i)),
     (file.drop (readU32 file (T + 8 * i + 4))).take (readU32 file (T + 8 * i)))

/-! ## The PO parser

`parse_po` works on Python `str` values; we model them as `List Char`
(Unicode code points, like Python).  The file is presented as its list of
lines, each still carrying any trailing `'\r'`/`'\n'` characters, which
`line.rstrip('\r\n')` removes. -/

/-- `unescape`: scan left to right; a backslash with a following character
consumes two characters and emits the mapped character (or both characters
verbatim when the escape is unknown); anything else — including a final
lone backslash — is copied through. -/
def unescape : List Char → List Char
  | [] => []
  | [c] => [c]
  | c1 :: c2 :: rest =>
    if c1 = '\\' then
      (if c2 = 'n' then ['\n']
       else if c2 = 't' then ['\t']
       else if c2 = 'r' then ['\r']
       else if c2 = '"' then ['"']
       else if c2 = '\\' then ['\\']
       else ['\\', c2]) ++ unescape rest
    else c1 :: unescape (c2 :: rest)

/-- `line[7:-1]` then `unescape`: the value of a `msgid ` line. -/
def msgidValue (line : List Char) : List Char :=
  unescape ((line.drop 7).dropLast)

/-- `line[8:-1]` then `unescape`: the value of a `msgstr ` line. -/
def msgstrValue (line : List Char) : List Char :=
  unescape ((line.drop 8).dropLast)

/-- `line[1:-1]` then `unescape`: the value of a bare quoted line. -/
def contValue (line : List Char) : List Char :=
  unescape ((line.drop 1).dropLast)

/-- `line.startswith(kw)`. -/
def kwStart : List Char → List Char → Bool
  | [], _ => true
  | _ :: _, [] => false
  | k :: ks, c :: cs => k == c && kwStart ks cs

/-- `not line.strip()` restricted to the ASCII whitespace Python strips
(the catalog format never uses the further Unicode space characters). -/
def isBlankLine (l : List Char) : Bool :=
  l.all fun c => c == ' ' || c == '\t' || c == '\n' || c == '\r' ||
    c == '\x0b' || c == '\x0c'

/-- `line.rstrip('\r\n')`: remove every trailing CR and LF. -/
def rstripCRLF (l : List Char) : List Char :=
  (l.reverse.dropWhile fun c => c == '\r' || c == '\n').reverse

/-- The parser's per-line mutable state: output so far, the two
accumulators (`None` = never set) and the two mode flags. -/
structure PState where
  pairs : List (List Char × List Char)
  curId : Option (List Char)
  curStr : Option (List Char)
  inId : Bool
  inStr : Bool
deriving DecidableEq

/-- `save()`: append the pending entry when both fields were set. -/
def save (st : PState) : List (List Char × List Char) :=
  match st.curId, st.curStr with
  | some i, some s => st.pairs ++ [(i, s)]
  | _, _ => st.pairs

def initState : PState := ⟨[], none, none, false, false⟩

/-- The body of `parse_po`'s loop, after `rstrip`.  On the reachable
states `inId`/`inStr` imply the corresponding accumulator is set, so the
`Option.map` on the continuation branch is exactly Python's `+=`. -/
def stepStripped (st : PState) (line : List Char) : PState :=
  if kwStart ['#'] line || isBlankLine line then st
  else if kwStart ['m', 's', 'g', 'i', 'd', ' '] line then
    { pairs := save st, curId := some (msgidValue line), curStr := none,
      inId := true, inStr := false }
  else if kwStart ['m', 's', 'g', 's', 't', 'r', ' '] line then
    { st with curStr := some (msgstrValue line), inId := false, inStr := true }
  else if (line.head? == some '"') && (line.getLast? == some '"') then
    if st.inId then
      { st with curId := st.curId.map fun x => x ++ contValue line }
    else if st.inStr then
      { st with curStr := st.curStr.map fun x => x ++ contValue line }
    else st
  else st

/-- One iteration of `for line in f`. -/
def stepLine (st : PState) (raw : List Char) : PState :=
  stepStripped st (rstripCRLF raw)

/-- `parse_po`, over the file's list of raw lines: fold the per-line step
from the initial state and finalize the pending entry at end of file. -/
def parse_po (lines : List (List Char)) : List (List Char × List Char) :=
  save (lines.foldl stepLine initState)

/-- Modelled from the spec: "a line's value is everything between the
first and last quote character on that line" (§4.1) — the repository has
no such extraction routine; the code slices at fixed positions instead. -/
def betweenQuotes (line : List Char) : List Char :=
  ((((line.dropWhile fun c => !(c == '"')).drop 1).reverse.dropWhile
      fun c => !(c == '"')).drop 1).reverse

/-- The scanner of `unescape` consumes the string without its final
character being a lone backslash: appending one more character cannot pair
with an earlier backslash. -/
def endsClean : List Char → Bool
  | [] => true
  | [c] => !(c == '\\')
  | c1 :: c2 :: rest =>
    if c1 = '\\' then endsClean rest else endsClean (c2 :: rest)

/-- What a reader sees as original-strings table entry `i`: slice
`length` bytes (the word at `28 + 8i`) at absolute offset (the word at
`28 + 8i + 4`). -/
def origStringAt (file : Bytes) (i : Nat) : Bytes :=
  (file.drop (readU32 file (28 + 8 * i + 4))).take (readU32 file (28 + 8 * i))

/-- Demo catalog: `[("b","x"), ("","m"), ("a","")]` as UTF-8 bytes — one
regular entry, a header entry, and an entry with empty translation. -/
def demoPairs : List (Bytes × Bytes) := [([98], [120]), ([], [109]), ([97], [])]

/-- The spec's filtering example `[("a",""), ("b","x"), ("","meta")]`. -/
def demoFilter : List (Bytes × Bytes) :=
  [([97], []), ([98], [120]), ([], [109, 101, 116, 97])]

/-- Demo catalog with every translation non-empty: `[("b","x"), ("","m")]`. -/
def demoRound : List (Bytes × Bytes) := [([98], [120]), ([], [109])]


/-! ## Basic byte-level lemmas -/

theorem u32_length (n : Nat) : (u32 n).length = 4 := rfl

theorem byteAt_append_right {A : Bytes} (B : Bytes) {i : Nat}
    (h : A.length ≤ i) : byteAt (A ++ B) i = byteAt B (i - A.length) := by
  simpa [byteAt] using List.getD_append_right A B 0 i h

theorem readU32_append_right {A : Bytes} (B : Bytes) {p : Nat}
    (h : A.length ≤ p) : readU32 (A ++ B) p = readU32 B (p - A.length) := by
  have e1 : p + 1 - A.length = p - A.length + 1 := by omega
  have e2 : p + 2 - A.length = p - A.length + 2 := by omega
  have e3 : p + 3 - A.length = p - A.length + 3 := by omega
  unfold readU32
  rw [byteAt_append_right B h, byteAt_append_right B (by omega),
    byteAt_append_right B (by omega), byteAt_append_right B (by omega),
    e1, e2, e3]

/-- Skip one packed word: reading 4 bytes further ignores a leading `u32`. -/
theorem readU32_skip (n : Nat) (rest : Bytes) (p : Nat) :
    readU32 (u32 n ++ rest) (4 + p) = readU32 rest p := by
  rw [readU32_append_right rest (by simp [u32_length])]
  simp [u32_length]

theorem readU32_u32 (n : Nat) (rest : Bytes) (h : n < 4294967296) :
    readU32 (u32 n ++ rest) 0 = n := by
  unfold readU32 byteAt u32
  rw [List.getD_append _ _ _ _ (by simp), List.getD_append _ _ _ _ (by simp),
    List.getD_append _ _ _ _ (by simp), List.getD_append _ _ _ _ (by simp)]
  simp only [List.getD]
  simp [List.get?]
  omega

/-! ## Structural lemmas about the encoded regions -/

theorem table_cons (lo : Nat × Nat) (m : List (Nat × Nat)) :
    table (lo :: m) = u32 lo.1 ++ u32 lo.2 ++ table m := by
  simp [table, List.append_assoc]

theorem table_length (m : List (Nat × Nat)) : (table m).length = 8 * m.length := by
  induction m with
  | nil => rfl
  | cons lo m ih => rw [table_cons]; simp [u32_length, ih]; omega

theorem blob_cons (s : Bytes) (ss : List Bytes) :
    blob (s :: ss) = s ++ 0 :: blob ss := by
  simp [blob]

theorem blob_append (a b : List Bytes) : blob (a ++ b) = blob a ++ blob b := by
  simp [blob]

theorem metaFrom_length (ks : List Bytes) :
    ∀ p : Nat, (metaFrom p ks).length = ks.length := by
  induction ks with
  | nil => intro p; rfl
  | cons k ks ih => intro p; simp [metaFrom, ih]

theorem drop_append_len {α : Type} : ∀ (A B : List α) (s : Nat),
    (A ++ B).drop (A.length + s) = B.drop s
  | [], B, s => by simp
  | a :: A, B, s => by
    have h : (a :: A).length + s = A.length + s + 1 := by
      simp only [List.length_cons]; omega
    rw [h, List.cons_append, List.drop_succ_cons, drop_append_len A B s]

theorem byteAt_add_drop : ∀ (n : Nat) (l : Bytes) (m : Nat),
    byteAt l (n + m) = byteAt (l.drop n) m
  | 0, l, m => by simp
  | n + 1, [], m => by simp [byteAt]
  | n + 1, a :: l, m => by
    have h : n + 1 + m = (n + m) + 1 := by omega
    rw [h, List.drop_succ_cons]
    show (a :: l).getD ((n + m) + 1) 0 = _
    rw [List.getD_cons_succ]
    exact byteAt_add_drop n l m

/-- Entry `i` of the metadata list built from position `p`: the length of
string `i`, placed after all earlier strings and their NULs. -/
theorem metaFrom_getD : ∀ (ks : List Bytes) (p i : Nat), i < ks.length →
    (metaFrom p ks).getD i (0, 0) =
      ((ks.getD i []).length, p + (blob (ks.take i)).length)
  | [], _, i, h => by simp at h
  | k :: ks, p, 0, _ => by simp [metaFrom, blob]
  | k :: ks, p, i + 1, h => by
    have hlt : i < ks.length := by simpa using h
    rw [metaFrom]
    show (metaFrom (p + k.length + 1) ks).getD i (0, 0) = _
    rw [metaFrom_getD ks (p + k.length + 1) i hlt]
    simp only [List.take_succ_cons, blob_cons, List.getD_cons_succ]
    rw [Prod.mk.injEq]
    refine ⟨rfl, ?_⟩
    simp only [List.length_append, List.length_cons]
    omega

/-- Dropping past the first `i` strings of a blob lands exactly on string
`i`, which is followed by its NUL and the remaining strings. -/
theorem blob_drop : ∀ (ks : List Bytes) (i : Nat), i < ks.length →
    (blob ks).drop (blob (ks.take i)).length =
      ks.getD i [] ++ 0 :: blob (ks.drop (i + 1))
  | [], i, h => by simp at h
  | k :: ks, 0, _ => by simp [blob_cons, blob]
  | k :: ks, i + 1, h => by
    have hlt : i < ks.length := by simpa using h
    rw [List.take_succ_cons, blob_cons, blob_cons, List.length_append]
    have h2 : k.length + (0 :: blob (ks.take i)).length =
        (k ++ [0]).length + (blob (ks.take i)).length := by simp; omega
    rw [h2]
    have h3 : k ++ 0 :: blob ks = (k ++ [0]) ++ blob ks := by
      simp [List.append_assoc]
    rw [h3, drop_append_len, blob_drop ks i hlt]
    simp

/-! ## Reading words back out of the encoded file -/

theorem readU32_table_fst : ∀ (m : List (Nat × Nat)) (rest : Bytes) (i : Nat),
    i < m.length → (m.getD i (0, 0)).1 < 4294967296 →
    readU32 (table m ++ rest) (8 * i) = (m.getD i (0, 0)).1
  | [], _, i, h, _ => by simp at h
  | lo :: m, rest, 0, _, hfit => by
    rw [table_cons, List.append_assoc, List.append_assoc]
    simpa using readU32_u32 lo.1 _ (by simpa using hfit)
  | lo :: m, rest, i + 1, h, hfit => by
    have hlt : i < m.length := by simpa using h
    rw [table_cons, List.append_assoc, List.append_assoc,
      show 8 * (i + 1) = 4 + (4 + 8 * i) by omega, readU32_skip, readU32_skip]
    simpa using readU32_table_fst m rest i hlt (by simpa using hfit)

theorem readU32_table_snd : ∀ (m : List (Nat × Nat)) (rest : Bytes) (i : Nat),
    i < m.length → (m.getD i (0, 0)).2 < 4294967296 →
    readU32 (table m ++ rest) (8 * i + 4) = (m.getD i (0, 0)).2
  | [], _, i, h, _ => by simp at h
  | lo :: m, rest, 0, _, hfit => by
    rw [table_cons, List.append_assoc, List.append_assoc,
      show 8 * 0 + 4 = 4 + 0 by omega, readU32_skip]
    simpa using readU32_u32 lo.2 _ (by simpa using hfit)
  | lo :: m, rest, i + 1, h, hfit => by
    have hlt : i < m.length := by simpa using h
    rw [table_cons, List.append_assoc, List.append_assoc,
      show 8 * (i + 1) + 4 = 4 + (4 + (8 * i + 4)) by omega,
      readU32_skip, readU32_skip]
    simpa using readU32_table_snd m rest i hlt (by simpa using hfit)

theorem packOk_counts {ss : List (Bytes × Bytes)} (h : packOk ss = true) :
    ss.length < 4294967296 ∧ 28 + 8 * ss.length < 4294967296 ∧
      28 + 16 * ss.length < 4294967296 := by
  simp only [packOk, fitsU32, Bool.and_eq_true, decide_eq_true_eq] at h
  exact ⟨h.1.1.1.1, h.1.1.1.2, h.1.1.2⟩

theorem packOk_orig {ss : List (Bytes × Bytes)} (h : packOk ss = true) :
    ∀ lo ∈ orig_meta ss, lo.1 < 4294967296 ∧ lo.2 < 4294967296 := by
  simp only [packOk, fitsU32, Bool.and_eq_true, List.all_eq_true,
    decide_eq_true_eq] at h
  intro lo hlo
  exact h.1.2 lo hlo

theorem packOk_trans {ss : List (Bytes × Bytes)} (h : packOk ss = true) :
    ∀ lo ∈ trans_meta ss, lo.1 < 4294967296 ∧ lo.2 < 4294967296 := by
  simp only [packOk, fitsU32, Bool.and_eq_true, List.all_eq_true,
    decide_eq_true_eq] at h
  intro lo hlo
  exact h.2 lo hlo

/-- The seven header words read back as written: magic, revision 0, entry
count, table offsets `28` and `28 + 8N`, hash size 0, hash offset
`28 + 16N`. -/
theorem readU32_encode_header {ss : List (Bytes × Bytes)}
    (h : packOk ss = true) :
    readU32 (encode ss) 0 = 0x950412de ∧ readU32 (encode ss) 4 = 0 ∧
    readU32 (encode ss) 8 = ss.length ∧ readU32 (encode ss) 12 = 28 ∧
    readU32 (encode ss) 16 = 28 + 8 * ss.length ∧
    readU32 (encode ss) 20 = 0 ∧
    readU32 (encode ss) 24 = 28 + 16 * ss.length := by
  obtain ⟨hN, hT, hH⟩ := packOk_counts h
  unfold encode
  simp only [List.append_assoc]
  refine ⟨readU32_u32 _ _ (by decide), ?_, ?_, ?_, ?_, ?_, ?_⟩
  · rw [show (4 : Nat) = 4 + 0 from rfl, readU32_skip]
    exact readU32_u32 _ _ (by decide)
  · rw [show (8 : Nat) = 4 + (4 + 0) from rfl, readU32_skip, readU32_skip]
    exact readU32_u32 _ _ hN
  · rw [show (12 : Nat) = 4 + (4 + (4 + 0)) from rfl, readU32_skip,
      readU32_skip, readU32_skip]
    exact readU32_u32 _ _ (by decide)
  · rw [show (16 : Nat) = 4 + (4 + (4 + (4 + 0))) from rfl, readU32_skip,
      readU32_skip, readU32_skip, readU32_skip]
    exact readU32_u32 _ _ hT
  · rw [show (20 : Nat) = 4 + (4 + (4 + (4 + (4 + 0)))) from rfl,
      readU32_skip, readU32_skip, readU32_skip, readU32_skip, readU32_skip]
    exact readU32_u32 _ _ (by decide)
  · rw [show (24 : Nat) = 4 + (4 + (4 + (4 + (4 + (4 + 0))))) from rfl,
      readU32_skip, readU32_skip, readU32_skip, readU32_skip, readU32_skip,
      readU32_skip]
    exact readU32_u32 _ _ hH

/-- Reading at `28 + 8i` lands in the original-strings table. -/
theorem readU32_encode_origTable {ss : List (Bytes × Bytes)} (p : Nat) :
    readU32 (encode ss) (28 + p) =
      readU32 (table (orig_meta ss) ++ (table (trans_meta ss) ++
        (blob (ss.map Prod.fst) ++ blob (ss.map Prod.snd)))) p := by
  unfold encode
  simp only [List.append_assoc]
  rw [show 28 + p = 4 + (4 + (4 + (4 + (4 + (4 + (4 + p)))))) by omega,
    readU32_skip, readU32_skip, readU32_skip, readU32_skip, readU32_skip,
    readU32_skip, readU32_skip]

/-- Reading at `28 + 8N + p` lands in the translated-strings table. -/
theorem readU32_encode_transTable {ss : List (Bytes × Bytes)} (p : Nat) :
    readU32 (encode ss) (28 + 8 * ss.length + p) =
      readU32 (table (trans_meta ss) ++
        (blob (ss.map Prod.fst) ++ blob (ss.map Prod.snd))) p := by
  rw [show 28 + 8 * ss.length + p = 28 + (8 * ss.length + p) by omega,
    readU32_encode_origTable]
  rw [readU32_append_right _ (by
    rw [table_length, orig_meta, metaFrom_length, List.length_map]; omega)]
  congr 1
  rw [table_length, orig_meta, metaFrom_length, List.length_map]
  omega

/-- Dropping `28 + 16N + s` bytes of the file lands `s` bytes into the
string-data region. -/
theorem encode_drop (ss : List (Bytes × Bytes)) (s : Nat) :
    (encode ss).drop (28 + 16 * ss.length + s) =
      (blob (ss.map Prod.fst) ++ blob (ss.map Prod.snd)).drop s := by
  have hP : encode ss =
      (u32 0x950412de ++ u32 0 ++ u32 ss.length ++ u32 28 ++
        u32 (28 + 8 * ss.length) ++ u32 0 ++ u32 (28 + 16 * ss.length) ++
        table (orig_meta ss) ++ table (trans_meta ss)) ++
      (blob (ss.map Prod.fst) ++ blob (ss.map Prod.snd)) := by
    simp [encode, List.append_assoc]
  have hlen : (u32 0x950412de ++ u32 0 ++ u32 ss.length ++ u32 28 ++
      u32 (28 + 8 * ss.length) ++ u32 0 ++ u32 (28 + 16 * ss.length) ++
      table (orig_meta ss) ++ table (trans_meta ss)).length =
      28 + 16 * ss.length := by
    simp only [List.length_append, u32_length, table_length, orig_meta,
      trans_meta, metaFrom_length, List.length_map]
    omega
  rw [hP, show 28 + 16 * ss.length + s =
    (u32 0x950412de ++ u32 0 ++ u32 ss.length ++ u32 28 ++
      u32 (28 + 8 * ss.length) ++ u32 0 ++ u32 (28 + 16 * ss.length) ++
      table (orig_meta ss) ++ table (trans_meta ss)).length + s
    by rw [hlen], drop_append_len]

/-! ## Per-entry exactness -/

theorem orig_meta_getD {ss : List (Bytes × Bytes)} {i : Nat}
    (hi : i < ss.length) :
    (orig_meta ss).getD i (0, 0) =
      (((ss.map Prod.fst).getD i []).length,
        28 + 16 * ss.length + (blob ((ss.map Prod.fst).take i)).length) := by
  exact metaFrom_getD (ss.map Prod.fst) _ i (by simpa using hi)

theorem trans_meta_getD {ss : List (Bytes × Bytes)} {i : Nat}
    (hi : i < ss.length) :
    (trans_meta ss).getD i (0, 0) =
      (((ss.map Prod.snd).getD i []).length,
        28 + 16 * ss.length + (blob (ss.map Prod.fst)).length +
          (blob ((ss.map Prod.snd).take i)).length) := by
  rw [trans_meta, metaFrom_getD (ss.map Prod.snd) _ i (by simpa using hi)]

theorem getD_mem_of_lt {α : Type} {l : List α} {i : Nat} (d : α)
    (h : i < l.length) : l.getD i d ∈ l := by
  rw [List.getD_eq_getElem l d h]
  exact List.getElem_mem h

/-- Original-strings entry `i` of the file: its `length` word is the byte
length of key `i`, its `offset` word is the absolute position of key `i`'s
first byte, the `length` bytes there are exactly key `i`, and the next byte
is NUL. -/
theorem encode_orig_entry {ss : List (Bytes × Bytes)} (h : packOk ss = true)
    {i : Nat} (hi : i < ss.length) :
    readU32 (encode ss) (28 + 8 * i) = ((ss.map Prod.fst).getD i []).length ∧
    readU32 (encode ss) (28 + 8 * i + 4) =
      28 + 16 * ss.length + (blob ((ss.map Prod.fst).take i)).length ∧
    ((encode ss).drop
        (28 + 16 * ss.length + (blob ((ss.map Prod.fst).take i)).length)).take
        ((ss.map Prod.fst).getD i []).length = (ss.map Prod.fst).getD i [] ∧
    byteAt (encode ss)
        (28 + 16 * ss.length + (blob ((ss.map Prod.fst).take i)).length +
          ((ss.map Prod.fst).getD i []).length) = 0 := by
  have hik : i < (ss.map Prod.fst).length := by simpa using hi
  have him : i < (orig_meta ss).length := by
    rw [orig_meta, metaFrom_length, List.length_map]; exact hi
  have hfit := packOk_orig h _ (getD_mem_of_lt (0, 0) him)
  have hgd := orig_meta_getD hi
  have hdrop : (encode ss).drop
      (28 + 16 * ss.length + (blob ((ss.map Prod.fst).take i)).length) =
      (ss.map Prod.fst).getD i [] ++
        0 :: (blob ((ss.map Prod.fst).drop (i + 1)) ++
          blob (ss.map Prod.snd)) := by
    rw [encode_drop]
    have hsplit : blob (ss.map Prod.fst) ++ blob (ss.map Prod.snd) =
        blob ((ss.map Prod.fst).take i) ++
          (blob ((ss.map Prod.fst).drop i) ++ blob (ss.map Prod.snd)) := by
      conv_lhs => rw [← List.take_append_drop i (ss.map Prod.fst)]
      rw [blob_append, List.append_assoc]
    rw [hsplit, show (blob ((ss.map Prod.fst).take i)).length =
      (blob ((ss.map Prod.fst).take i)).length + 0 by omega, drop_append_len,
      List.drop_zero, List.drop_eq_getElem_cons hik, blob_cons,
      List.getD_eq_getElem _ [] hik, List.append_assoc, List.cons_append]
  refine ⟨?_, ?_, ?_, ?_⟩
  · rw [readU32_encode_origTable, readU32_table_fst _ _ i him
      (by rw [hgd] at hfit ⊢; exact hfit.1), hgd]
  · rw [show 28 + 8 * i + 4 = 28 + (8 * i + 4) by omega,
      readU32_encode_origTable, readU32_table_snd _ _ i him
      (by rw [hgd] at hfit ⊢; exact hfit.2), hgd]
  · rw [hdrop]
    exact List.take_left ((ss.map Prod.fst).getD i []) _
  · rw [byteAt_add_drop, hdrop, byteAt_append_right _ (le_refl _)]
    simp [byteAt]

/-- Translated-strings entry `i` of the file: same four facts, with the
translated data following the original data contiguously. -/
theorem encode_trans_entry {ss : List (Bytes × Bytes)} (h : packOk ss = true)
    {i : Nat} (hi : i < ss.length) :
    readU32 (encode ss) (28 + 8 * ss.length + 8 * i) =
      ((ss.map Prod.snd).getD i []).length ∧
    readU32 (encode ss) (28 + 8 * ss.length + 8 * i + 4) =
      28 + 16 * ss.length + (blob (ss.map Prod.fst)).length +
        (blob ((ss.map Prod.snd).take i)).length ∧
    ((encode ss).drop
        (28 + 16 * ss.length + (blob (ss.map Prod.fst)).length +
          (blob ((ss.map Prod.snd).take i)).length)).take
        ((ss.map Prod.snd).getD i []).length = (ss.map Prod.snd).getD i [] ∧
    byteAt (encode ss)
        (28 + 16 * ss.length + (blob (ss.map Prod.fst)).length +
          (blob ((ss.map Prod.snd).take i)).length +
          ((ss.map Prod.snd).getD i []).length) = 0 := by
  have hiv : i < (ss.map Prod.snd).length := by simpa using hi
  have him : i < (trans_meta ss).length := by
    rw [trans_meta, metaFrom_length, List.length_map]; exact hi
  have hfit := packOk_trans h _ (getD_mem_of_lt (0, 0) him)
  have hgd := trans_meta_getD hi
  have hdrop : (encode ss).drop
      (28 + 16 * ss.length + (blob (ss.map Prod.fst)).length +
        (blob ((ss.map Prod.snd).take i)).length) =
      (ss.map Prod.snd).getD i [] ++
        0 :: blob ((ss.map Prod.snd).drop (i + 1)) := by
    rw [show 28 + 16 * ss.length + (blob (ss.map Prod.fst)).length +
      (blob ((ss.map Prod.snd).take i)).length =
      28 + 16 * ss.length + ((blob (ss.map Prod.fst)).length +
        (blob ((ss.map Prod.snd).take i)).length) by omega, encode_drop,
      drop_append_len, blob_drop _ i hiv]
  refine ⟨?_, ?_, ?_, ?_⟩
  · rw [readU32_encode_transTable, readU32_table_fst _ _ i him
      (by rw [hgd] at hfit ⊢; exact hfit.1), hgd]
  · rw [show 28 + 8 * ss.length + 8 * i + 4 =
      28 + 8 * ss.length + (8 * i + 4) by omega,
      readU32_encode_transTable, readU32_table_snd _ _ i him
      (by rw [hgd] at hfit ⊢; exact hfit.2), hgd]
  · rw [hdrop]
    exact List.take_left ((ss.map Prod.snd).getD i []) _
  · rw [byteAt_add_drop, hdrop, byteAt_append_right _ (le_refl _)]
    simp [byteAt]

/-! ## The byte-wise order and the sort -/

theorem bytesLe_total : ∀ a b : Bytes, bytesLe a b = true ∨ bytesLe b a = true
  | [], _ => Or.inl rfl
  | _ :: _, [] => Or.inr rfl
  | x :: xs, y :: ys => by
    rcases Nat.lt_trichotomy x y with hlt | heq | hgt
    · left; simp [bytesLe, hlt]
    · subst heq
      rcases bytesLe_total xs ys with h | h
      · left; simp [bytesLe, h]
      · right; simp [bytesLe, h]
    · right; simp [bytesLe, hgt]

theorem bytesLe_trans : ∀ a b c : Bytes, bytesLe a b = true →
    bytesLe b c = true → bytesLe a c = true
  | [], _, _, _, _ => rfl
  | _ :: _, [], _, h1, _ => by simp [bytesLe] at h1
  | _ :: _, _ :: _, [], _, h2 => by simp [bytesLe] at h2
  | x :: xs, y :: ys, z :: zs, h1, h2 => by
    by_cases hxy : x < y
    · by_cases hyz : y < z
      · simp [bytesLe, show x < z by omega]
      · by_cases hyz2 : y = z
        · subst hyz2; simp [bytesLe, hxy]
        · simp [bytesLe, hyz, hyz2] at h2
    · by_cases hxy2 : x = y
      · subst hxy2
        simp only [bytesLe, if_neg (lt_irrefl x), if_pos rfl] at h1
        by_cases hxz : x < z
        · simp [bytesLe, hxz]
        · by_cases hxz2 : x = z
          · subst hxz2
            simp only [bytesLe, if_neg (lt_irrefl x), if_pos rfl] at h2 ⊢
            exact bytesLe_trans xs ys zs h1 h2
          · simp [bytesLe, hxz, hxz2] at h2
      · simp [bytesLe, hxy, hxy2] at h1

theorem sortPairs_sorted (l : List (Bytes × Bytes)) :
    List.Sorted (fun x y => bytesLe x.1 y.1 = true) (sortPairs l) := by
  haveI : IsTotal (Bytes × Bytes) (fun x y => bytesLe x.1 y.1 = true) :=
    ⟨fun a b => bytesLe_total a.1 b.1⟩
  haveI : IsTrans (Bytes × Bytes) (fun x y => bytesLe x.1 y.1 = true) :=
    ⟨fun a b c => bytesLe_trans a.1 b.1 c.1⟩
  exact List.sorted_insertionSort _ l

theorem sortPairs_perm (l : List (Bytes × Bytes)) :
    List.Perm (sortPairs l) l :=
  List.perm_insertionSort _ l

/-! ## Filtering and `make_mo` inversion -/

theorem mem_filterPairs {p : Bytes × Bytes} {pairs : List (Bytes × Bytes)} :
    p ∈ filterPairs pairs ↔ p ∈ pairs ∧ (p.2 ≠ [] ∨ p.1 = []) := by
  simp only [filterPairs, List.mem_filter, Bool.or_eq_true,
    Bool.not_eq_true', List.isEmpty_iff, List.isEmpty_eq_false]

theorem filterPairs_eq_self {pairs : List (Bytes × Bytes)}
    (h : ∀ p ∈ pairs, p.2 ≠ [] ∨ p.1 = []) : filterPairs pairs = pairs := by
  rw [filterPairs, List.filter_eq_self]
  intro a ha
  rcases h a ha with hv | hk
  · simp [List.isEmpty_eq_false.mpr hv]
  · simp [hk]

theorem make_mo_some {pairs : List (Bytes × Bytes)} {file : Bytes}
    (h : make_mo pairs = some file) :
    packOk (survivors pairs) = true ∧ file = encode (survivors pairs) := by
  unfold make_mo at h
  split at h
  · cases h; exact ⟨by assumption, rfl⟩
  · cases h

/-! ## Decoding the encoded file -/

/-- The conforming reader recovers exactly the filtered, sorted entry
list from the file `make_mo` emits. -/
theorem readMo_encode {ss : List (Bytes × Bytes)} (h : packOk ss = true) :
    readMo (encode ss) = ss := by
  obtain ⟨-, -, h8, h12, h16, -, -⟩ := readU32_encode_header h
  unfold readMo
  rw [h8, h12, h16]
  apply List.ext_getElem (by simp)
  intro i h1 h2
  have hi : i < ss.length := h2
  obtain ⟨o1, o2, o3, o4⟩ := encode_orig_entry h hi
  obtain ⟨t1, t2, t3, t4⟩ := encode_trans_entry h hi
  simp only [List.getElem_map, List.getElem_range]
  rw [o2, o1, o3, t2, t1, t3,
    List.getD_eq_getElem _ [] (show i < (ss.map Prod.fst).length by
      simpa using hi),
    List.getD_eq_getElem _ [] (show i < (ss.map Prod.snd).length by
      simpa using hi)]
  simp

/-! ## Parser helper lemmas -/

theorem unescape_pair (c : Char) (s : List Char) :
    unescape ('\\' :: c :: s) =
      (if c = 'n' then ['\n']
       else if c = 't' then ['\t']
       else if c = 'r' then ['\r']
       else if c = '"' then ['"']
       else if c = '\\' then ['\\']
       else ['\\', c]) ++ unescape s := by
  simp [unescape]

theorem unescape_cons_ne {c : Char} (h : ¬c = '\\') (l : List Char) :
    unescape (c :: l) = c :: unescape l := by
  cases l with
  | nil => simp [unescape]
  | cons d r => simp [unescape, h]

theorem dropLast_single {α : Type} : ∀ (l : List α) (a : α),
    (l ++ [a]).dropLast = l
  | [], _ => rfl
  | [_], _ => rfl
  | b :: c :: r, a => by
    have ih := dropLast_single (c :: r) a
    simp only [List.cons_append] at ih ⊢
    rw [List.dropLast_cons₂, ih]

theorem unescape_trailing_aux (n : Nat) : ∀ t : List Char, t.length ≤ n →
    endsClean t = true → unescape (t ++ ['\\']) = unescape t ++ ['\\'] := by
  induction n with
  | zero =>
    intro t ht _
    have h0 : t = [] := List.eq_nil_of_length_eq_zero (by omega)
    subst h0
    simp [unescape]
  | succ n ih =>
    intro t ht hclean
    cases t with
    | nil => simp [unescape]
    | cons c1 rest0 =>
      cases rest0 with
      | nil =>
        have hc : ¬c1 = '\\' := by
          simpa [endsClean] using hclean
        simp [unescape, hc]
      | cons c2 rest =>
        by_cases hc : c1 = '\\'
        · subst hc
          have hcl : endsClean rest = true := by
            simpa [endsClean] using hclean
          have hlen : rest.length ≤ n := by
            simp only [List.length_cons] at ht; omega
          simp only [List.cons_append]
          rw [unescape_pair, unescape_pair, ih rest hlen hcl,
            List.append_assoc]
        · have hcl : endsClean (c2 :: rest) = true := by
            simpa [endsClean, hc] using hclean
          have hlen : (c2 :: rest).length ≤ n := by
            simp only [List.length_cons] at ht ⊢; omega
          rw [List.cons_append, unescape_cons_ne hc, unescape_cons_ne hc,
            ih _ hlen hcl, List.cons_append]

/-! ## Claim theorems: the parser -/

/-- **C9.** Escape resolution: `unescape` replaces a backslash followed by
`n`, `t`, `r`, `"` or `\` with LF, TAB, CR, a double quote or a single
backslash respectively, and passes a backslash followed by any other
character through literally as both characters; no octal, hex or unicode
escapes are interpreted (any such sequence falls into the literal
pass-through branch).  In particular `a\tb` and `c\nd` resolve to
`a<TAB>b` and `c<LF>d`. -/
theorem unescape_escape_resolution :
    (∀ (c : Char) (s : List Char),
      unescape ('\\' :: c :: s) =
        (if c = 'n' then ['\n']
         else if c = 't' then ['\t']
         else if c = 'r' then ['\r']
         else if c = '"' then ['"']
         else if c = '\\' then ['\\']
         else ['\\', c]) ++ unescape s) ∧
    unescape ['a', '\\', 't', 'b'] = ['a', '\t', 'b'] ∧
    unescape ['c', '\\', 'n', 'd'] = ['c', '\n', 'd'] :=
  ⟨unescape_pair, by decide, by decide⟩

/-- **C10.** Lone trailing backslash: when a string ends in a backslash
that cannot pair with an earlier unconsumed backslash (`endsClean` states
that the scanner reaches the appended final character alone), `unescape`
keeps that backslash verbatim at the end of the output.  Totality holds by
construction: `unescape` is a total function on all character lists. -/
theorem unescape_lone_trailing (t : List Char) (h : endsClean t = true) :
    unescape (t ++ ['\\']) = unescape t ++ ['\\'] :=
  unescape_trailing_aux t.length t (le_refl _) h

theorem unescape_lone_trailing_witness :
    endsClean ['a'] = true ∧
      unescape (['a'] ++ ['\\']) = unescape ['a'] ++ ['\\'] :=
  ⟨by decide, unescape_lone_trailing ['a'] (by decide)⟩

/-- **C6 counterexample.** The claim that a keyword line's value is
everything between the first and last quote after stripping keyword and
whitespace — independent of the amount of whitespace — is false: the code
slices at the fixed positions `[7:-1]`/`[8:-1]`.  With two spaces after
`msgid` the extracted value keeps the opening quote and differs from the
one-space form; with a trailing space after the closing quote the value
keeps the closing quote. -/
theorem quoted_payload_cex :
    msgidValue "msgid  \"x\"".toList ≠
      unescape (betweenQuotes "msgid  \"x\"".toList) ∧
    msgidValue "msgid  \"x\"".toList ≠ msgidValue "msgid \"x\"".toList ∧
    msgstrValue "msgstr \"x\" ".toList ≠
      unescape (betweenQuotes "msgstr \"x\" ".toList) :=
  ⟨by decide, by decide, by decide⟩

/-- **C6 amended.** For canonical keyword lines — exactly one space
between the keyword and the opening quote, and the closing quote as the
line's final character — the extracted value is the unescaped text between
the first and last quote characters on the line (which is exactly the
enclosed body, even if the body itself contains quotes).  For other
spacings the fixed slice shifts into or past the quotes, as the
counterexample shows. -/
theorem quoted_payload_canonical (body : List Char) :
    msgidValue (('m' :: 's' :: 'g' :: 'i' :: 'd' :: ' ' :: '"' :: body) ++
        ['"']) = unescape body ∧
    msgstrValue (('m' :: 's' :: 'g' :: 's' :: 't' :: 'r' :: ' ' :: '"' ::
        body) ++ ['"']) = unescape body ∧
    betweenQuotes (('m' :: 's' :: 'g' :: 'i' :: 'd' :: ' ' :: '"' :: body) ++
        ['"']) = body ∧
    betweenQuotes (('m' :: 's' :: 'g' :: 's' :: 't' :: 'r' :: ' ' :: '"' ::
        body) ++ ['"']) = body := by
  refine ⟨?_, ?_, ?_, ?_⟩
  · show unescape ((body ++ ['"']).dropLast) = unescape body
    rw [dropLast_single]
  · show unescape ((body ++ ['"']).dropLast) = unescape body
    rw [dropLast_single]
  · show ((((body ++ ['"']).reverse).dropWhile fun c => !(c == '"')).drop
        1).reverse = body
    rw [List.reverse_append]
    exact List.reverse_reverse body
  · show ((((body ++ ['"']).reverse).dropWhile fun c => !(c == '"')).drop
        1).reverse = body
    rw [List.reverse_append]
    exact List.reverse_reverse body

/-- **C7.** Continuation concatenation: a line that (after `rstrip`)
starts and ends with a quote character is treated as a continuation — its
unescaped content is appended to the original accumulator when the parser
is accumulating the original, and to the translated accumulator when it is
accumulating the translation; and the four-line example parses to exactly
one entry `("hello world", "bonjour monde")`. -/
theorem continuation_concatenation :
    (∀ (st : PState) (line : List Char),
      line.head? = some '"' → line.getLast? = some '"' →
      ((st.inId = true →
        stepStripped st line =
          { st with curId := st.curId.map fun x => x ++ contValue line }) ∧
       (st.inId = false → st.inStr = true →
        stepStripped st line =
          { st with curStr := st.curStr.map fun x => x ++ contValue line }))) ∧
    (∀ (st : PState) (raw : List Char),
      stepLine st raw = stepStripped st (rstripCRLF raw)) ∧
    parse_po ["msgid \"hello \"".toList, "\"world\"".toList,
        "msgstr \"bonjour \"".toList, "\"monde\"".toList] =
      [("hello world".toList, "bonjour monde".toList)] := by
  refine ⟨?_, fun st raw => rfl, by decide⟩
  intro st line h1 h2
  cases line with
  | nil => simp at h1
  | cons c rest =>
    have hc : c = '"' := by simpa using h1
    subst hc
    have c1 : (kwStart ['#'] ('"' :: rest) ||
        isBlankLine ('"' :: rest)) = false := rfl
    have c2 : kwStart ['m', 's', 'g', 'i', 'd', ' '] ('"' :: rest) = false :=
      rfl
    have c3 : kwStart ['m', 's', 'g', 's', 't', 'r', ' '] ('"' :: rest) =
      false := rfl
    have c4 : ((('"' :: rest).head? == some '"') &&
        (('"' :: rest).getLast? == some '"')) = true := by
      rw [h2]; rfl
    refine ⟨fun hid => ?_, fun hid hstr => ?_⟩
    · unfold stepStripped
      rw [c1, c2, c3, c4, hid]
      simp
    · unfold stepStripped
      rw [c1, c2, c3, c4, hid, hstr]
      simp

theorem continuation_concatenation_witness :
    stepStripped ⟨[], some ['a'], none, true, false⟩ "\"b\"".toList =
      ⟨[], some ['a', 'b'], none, true, false⟩ := by
  have h := (continuation_concatenation.1 ⟨[], some ['a'], none, true, false⟩
    "\"b\"".toList (by decide) (by decide)).1 rfl
  rw [h]
  decide

/-- **C8.** Finalize rule: `save` appends an entry exactly when both
accumulators were set (possibly to the empty string) and leaves the output
unchanged when either is unset; `parse_po` finalizes the pending entry at
end of file; a `msgid` never followed by a `msgstr` before the next
`msgid` or end of file contributes no entry; an empty-string `msgstr`
still completes an entry. -/
theorem finalize_rule :
    (∀ (st : PState) (i s : List Char),
      st.curId = some i → st.curStr = some s →
        save st = st.pairs ++ [(i, s)]) ∧
    (∀ st : PState, st.curId = none → save st = st.pairs) ∧
    (∀ st : PState, st.curStr = none → save st = st.pairs) ∧
    (∀ lines : List (List Char),
      parse_po lines = save (lines.foldl stepLine initState)) ∧
    parse_po ["msgid \"a\"".toList] = [] ∧
    parse_po ["msgid \"a\"".toList, "msgid \"b\"".toList,
        "msgstr \"x\"".toList] = [(['b'], ['x'])] ∧
    parse_po ["msgid \"a\"".toList, "msgstr \"\"".toList] = [(['a'], [])] := by
  refine ⟨?_, ?_, ?_, fun lines => rfl, by decide, by decide, by decide⟩
  · intro st i s h1 h2
    unfold save
    rw [h1, h2]
  · intro st h1
    unfold save
    rw [h1]
  · intro st h1
    unfold save
    rw [h1]
    cases hc : st.curId <;> rfl

theorem finalize_rule_witness :
    save ⟨[], some ['a'], some ['x'], false, true⟩ = [(['a'], ['x'])] := by
  have h := finalize_rule.1 ⟨[], some ['a'], some ['x'], false, true⟩
    ['a'] ['x'] rfl rfl
  simpa using h

/-! ## Claim theorems: the encoder -/

/-- **C1.** Round-trip identity: when every entry has a non-empty
translation (the header entry with empty original being allowed an empty
value), decoding the file produced by `make_mo` with the conforming
reference reader yields exactly the input pairs as a set; and a supplied
header entry — whatever its value — is always present in the decoded
result. -/
theorem mo_roundtrip (pairs : List (Bytes × Bytes)) (file : Bytes)
    (hmk : make_mo pairs = some file) :
    ((∀ p ∈ pairs, p.2 ≠ [] ∨ p.1 = []) →
      (readMo file).toFinset = pairs.toFinset) ∧
    ∀ v : Bytes, ([], v) ∈ pairs → ([], v) ∈ readMo file := by
  obtain ⟨hok, rfl⟩ := make_mo_some hmk
  rw [readMo_encode hok]
  constructor
  · intro hall
    rw [survivors, filterPairs_eq_self hall]
    exact List.toFinset_eq_of_perm _ _ (sortPairs_perm pairs)
  · intro v hv
    rw [survivors]
    exact (sortPairs_perm _).mem_iff.mpr (mem_filterPairs.mpr ⟨hv, Or.inr rfl⟩)

theorem mo_roundtrip_witness :
    make_mo demoRound = some (encode (survivors demoRound)) ∧
    (∀ p ∈ demoRound, p.2 ≠ [] ∨ p.1 = []) ∧
    (readMo (encode (survivors demoRound))).toFinset = demoRound.toFinset ∧
    (([], [109]) ∈ demoRound →
      ([], [109]) ∈ readMo (encode (survivors demoRound))) := by
  refine ⟨by decide, by decide, ?_, ?_⟩
  · exact (mo_roundtrip demoRound _ (by decide)).1 (by decide)
  · exact fun h => (mo_roundtrip demoRound _ (by decide)).2 [109] h

/-- **C2.** Sort invariant: in the file produced by `make_mo`, the
original strings listed by adjacent entries of the original-strings table
are in byte-wise lexicographic order. -/
theorem mo_sort_invariant (pairs : List (Bytes × Bytes)) (file : Bytes)
    (hmk : make_mo pairs = some file) (i : Nat)
    (hi : i + 1 < (survivors pairs).length) :
    bytesLe (origStringAt file i) (origStringAt file (i + 1)) = true := by
  obtain ⟨hok, rfl⟩ := make_mo_some hmk
  have hi0 : i < (survivors pairs).length := by omega
  obtain ⟨o1, o2, o3, -⟩ := encode_orig_entry hok hi0
  obtain ⟨p1, p2, p3, -⟩ := encode_orig_entry hok hi
  unfold origStringAt
  rw [o2, o1, o3, p2, p1, p3]
  have hs : List.Sorted (fun x y => bytesLe x.1 y.1 = true)
      (survivors pairs) := sortPairs_sorted (filterPairs pairs)
  have hrel := hs.rel_get_of_lt (a := ⟨i, hi0⟩) (b := ⟨i + 1, hi⟩)
    (by simp [Fin.lt_def])
  rw [List.getD_eq_getElem _ [] (by simpa using hi0),
    List.getD_eq_getElem _ [] (by simpa using hi),
    List.getElem_map, List.getElem_map]
  simpa [List.get_eq_getElem] using hrel

theorem mo_sort_invariant_witness :
    make_mo demoPairs = some (encode (survivors demoPairs)) ∧
    0 + 1 < (survivors demoPairs).length ∧
    bytesLe (origStringAt (encode (survivors demoPairs)) 0)
      (origStringAt (encode (survivors demoPairs)) (0 + 1)) = true :=
  ⟨by decide, by decide, mo_sort_invariant demoPairs _ (by decide) 0 (by decide)⟩

/-- **C3.** Empty-translation filtering: a pair appears in the decoded
output of `make_mo` exactly when it appears in the input and has a
non-empty translation or an empty original; the spec's example
`[("a",""), ("b","x"), ("","meta")]` encodes to exactly the two entries
`("","meta")` and `("b","x")`. -/
theorem mo_filtering (pairs : List (Bytes × Bytes)) (file : Bytes)
    (hmk : make_mo pairs = some file) (k v : Bytes) :
    ((k, v) ∈ readMo file ↔ (k, v) ∈ pairs ∧ (v ≠ [] ∨ k = [])) ∧
    readMo ((make_mo demoFilter).getD []) =
      [([], [109, 101, 116, 97]), ([98], [120])] := by
  obtain ⟨hok, rfl⟩ := make_mo_some hmk
  refine ⟨?_, by decide⟩
  rw [readMo_encode hok, survivors, (sortPairs_perm _).mem_iff,
    mem_filterPairs]

theorem mo_filtering_witness :
    make_mo demoFilter = some (encode (survivors demoFilter)) ∧
    (([98], [120]) ∈ readMo (encode (survivors demoFilter)) ↔
      ([98], [120]) ∈ demoFilter ∧
        (([120] : Bytes) ≠ [] ∨ ([98] : Bytes) = [])) :=
  ⟨by decide, (mo_filtering demoFilter _ (by decide) [98] [120]).1⟩

/-- **C4.** Header layout: the file starts with seven little-endian
4-byte words at offsets 0, 4, …, 24 holding the magic number, revision 0,
the surviving entry count `N`, the table offsets `28` and `28 + 8N`, hash
size `0` and hash offset `28 + 16N`; and with `N = 0` the file is exactly
the 28-byte header, with both tables empty and no string data. -/
theorem mo_header_layout (pairs : List (Bytes × Bytes)) (file : Bytes)
    (hmk : make_mo pairs = some file) :
    readU32 file 0 = 0x950412de ∧ readU32 file 4 = 0 ∧
    readU32 file 8 = (survivors pairs).length ∧
    readU32 file 12 = 28 ∧
    readU32 file 16 = 28 + 8 * (survivors pairs).length ∧
    readU32 file 20 = 0 ∧
    readU32 file 24 = 28 + 16 * (survivors pairs).length ∧
    ((survivors pairs).length = 0 →
      file = u32 0x950412de ++ u32 0 ++ u32 0 ++ u32 28 ++ u32 28 ++
        u32 0 ++ u32 28 ∧ file.length = 28) := by
  obtain ⟨hok, rfl⟩ := make_mo_some hmk
  obtain ⟨h0, h4, h8, h12, h16, h20, h24⟩ := readU32_encode_header hok
  refine ⟨h0, h4, h8, h12, h16, h20, h24, ?_⟩
  intro hN
  have hnil : survivors pairs = [] := List.eq_nil_of_length_eq_zero hN
  rw [hnil]
  exact ⟨by decide, by decide⟩

theorem mo_header_layout_witness :
    make_mo demoPairs = some (encode (survivors demoPairs)) ∧
    readU32 (encode (survivors demoPairs)) 8 = 2 ∧
    make_mo [([97], ([] : Bytes))] =
      some (encode (survivors [([97], ([] : Bytes))])) ∧
    (encode (survivors [([97], ([] : Bytes))])).length = 28 := by
  refine ⟨by decide, ?_, by decide, ?_⟩
  · exact ((mo_header_layout demoPairs _ (by decide)).2.2.1).trans (by decide)
  · exact ((mo_header_layout [([97], ([] : Bytes))] _
      (by decide)).2.2.2.2.2.2.2 (by decide)).2

/-- **C5.** Offset/length exactness: for every entry `i` of both tables,
the `length` word is the byte length of the corresponding string, the
`offset` word is its absolute file position — `28 + 16N` plus the sizes of
the earlier original strings with their NULs for the original table, and
continuing contiguously after all original-string data for the translated
table, so every string (duplicates included) has its own storage — and
slicing `length` bytes at `offset` reproduces the string exactly, with the
single following byte being NUL. -/
theorem mo_offset_length_exact (pairs : List (Bytes × Bytes)) (file : Bytes)
    (hmk : make_mo pairs = some file) (i : Nat)
    (hi : i < (survivors pairs).length) :
    readU32 file (28 + 8 * i) =
      (((survivors pairs).map Prod.fst).getD i []).length ∧
    readU32 file (28 + 8 * i + 4) =
      28 + 16 * (survivors pairs).length +
        (blob (((survivors pairs).map Prod.fst).take i)).length ∧
    (file.drop (readU32 file (28 + 8 * i + 4))).take
        (readU32 file (28 + 8 * i)) =
      ((survivors pairs).map Prod.fst).getD i [] ∧
    byteAt file
        (readU32 file (28 + 8 * i + 4) + readU32 file (28 + 8 * i)) = 0 ∧
    readU32 file (28 + 8 * (survivors pairs).length + 8 * i) =
      (((survivors pairs).map Prod.snd).getD i []).length ∧
    readU32 file (28 + 8 * (survivors pairs).length + 8 * i + 4) =
      28 + 16 * (survivors pairs).length +
        (blob ((survivors pairs).map Prod.fst)).length +
        (blob (((survivors pairs).map Prod.snd).take i)).length ∧
    (file.drop
        (readU32 file (28 + 8 * (survivors pairs).length + 8 * i + 4))).take
        (readU32 file (28 + 8 * (survivors pairs).length + 8 * i)) =
      ((survivors pairs).map Prod.snd).getD i [] ∧
    byteAt file
        (readU32 file (28 + 8 * (survivors pairs).length + 8 * i + 4) +
          readU32 file (28 + 8 * (survivors pairs).length + 8 * i)) = 0 := by
  obtain ⟨hok, rfl⟩ := make_mo_some hmk
  obtain ⟨o1, o2, o3, o4⟩ := encode_orig_entry hok hi
  obtain ⟨t1, t2, t3, t4⟩ := encode_trans_entry hok hi
  refine ⟨o1, o2, ?_, ?_, t1, t2, ?_, ?_⟩
  · rw [o2, o1]; exact o3
  · rw [o2, o1]; exact o4
  · rw [t2, t1]; exact t3
  · rw [t2, t1]; exact t4

theorem mo_offset_length_exact_witness :
    make_mo demoPairs = some (encode (survivors demoPairs)) ∧
    0 < (survivors demoPairs).length ∧
    readU32 (encode (survivors demoPairs)) (28 + 8 * 0) =
      (((survivors demoPairs).map Prod.fst).getD 0 []).length :=
  ⟨by decide, by decide,
    (mo_offset_length_exact demoPairs _ (by decide) 0 (by decide)).1⟩

end MakeMo
